import Mathlib

/-!
Shallow embedding of the battleship-solitaire CSP solver (src/battle.py).

Cell values are characters ('S', '.', '0', '<', '>', '^', 'v', 'M', '\n').
A `VarState` mirrors the fields of the Python `Variable` class:
`_dom`, `_curdom`, `curdom_size` (a counter set once at construction and,
exactly as in the source, never updated afterwards), `_value`, `x`, `y`.
Variables are identified by their index in the CSP's variable list, and the
whole mutable solver state (`St`) is the list of variable states together
with the class-level pruning ledger `Variable.undoDict`, modelled as an
association list keyed by the (reason-variable index, reason-value) pair.
-/

abbrev Val := Char

structure VarState where
  dom : List Val
  curdom : List Val
  curdom_size : Nat
  value : Option Val
  x : Nat
  y : Nat

instance : Inhabited VarState :=
  ⟨{ dom := [], curdom := [], curdom_size := 0, value := none, x := 0, y := 0 }⟩

/-- `Variable.__init__`: the current domain starts as a copy of the domain and
`curdom_size` is set to the domain's length (and is never written again). -/
def mkVar (domain : List Val) (x y : Nat) : VarState :=
  { dom := domain, curdom := domain, curdom_size := domain.length,
    value := none, x := x, y := y }

/-- The pruning ledger `Variable.undoDict`: insertion-ordered association list
from a reason key (variable index, value) to the list of pruned (variable
index, value) pairs recorded under that key. -/
abbrev Ledger := List ((Nat × Val) × List (Nat × Val))

structure St where
  vars : List VarState
  undoDict : Ledger

def getVar (s : St) (v : Nat) : VarState := s.vars.getD v default

def updateVar (s : St) (v : Nat) (f : VarState → VarState) : St :=
  { s with vars := s.vars.set v (f (getVar s v)) }

/-- `Variable.isAssigned` -/
def isAssigned (vs : VarState) : Bool := vs.value.isSome

/-- `Variable.curDomain`: the assigned value alone if assigned, else a copy of
the working set. -/
def curDomain (vs : VarState) : List Val :=
  match vs.value with
  | some xv => [xv]
  | none => vs.curdom

/-- `Variable.curDomainSize` -/
def curDomainSize (vs : VarState) : Nat :=
  match vs.value with
  | some _ => 1
  | none => vs.curdom.length

/-- `Variable.inCurDomain` -/
def inCurDomain (vs : VarState) (value : Val) : Bool :=
  match vs.value with
  | some xv => value == xv
  | none => vs.curdom.contains value

/-- `Variable.setValue`: assigning a value outside the original domain only
prints an error and leaves the variable unchanged. -/
def setValue (s : St) (v : Nat) (value : Option Val) : St :=
  match value with
  | none => updateVar s v (fun vs => { vs with value := none })
  | some xv =>
    if xv ∈ (getVar s v).dom then
      updateVar s v (fun vs => { vs with value := some xv })
    else s

/-- `Variable.unAssign` -/
def unAssign (s : St) (v : Nat) : St := setValue s v none

/-- Dictionary lookup in `Variable.undoDict`. -/
def ledgerGet : Ledger → (Nat × Val) → Option (List (Nat × Val))
  | [], _ => none
  | e :: rest, k => if e.1 = k then some e.2 else ledgerGet rest k

/-- `Variable.undoDict[dkey].append(...)`, creating the empty entry first when
the key is absent (as `pruneValue` does). -/
def ledgerAdd : Ledger → (Nat × Val) → (Nat × Val) → Ledger
  | [], k, p => [(k, [p])]
  | e :: rest, k, p =>
    if e.1 = k then (e.1, e.2 ++ [p]) :: rest else e :: ledgerAdd rest k p

/-- `del Variable.undoDict[dkey]` -/
def ledgerDel : Ledger → (Nat × Val) → Ledger
  | [], _ => []
  | e :: rest, k => if e.1 = k then rest else e :: ledgerDel rest k

/-- `Variable.pruneValue`: remove `value` from the working set (`list.remove`
removes the first occurrence; when the value is absent the exception is caught
and only an error message is printed, so the working set is left unchanged);
then, in every case, record `(v, value)` in the ledger under the reason key. -/
def pruneValue (s : St) (v : Nat) (value : Val) (reasonVar : Nat) (reasonVal : Val) : St :=
  let s1 := updateVar s v (fun vs => { vs with curdom := vs.curdom.erase value })
  { s1 with undoDict := ledgerAdd s1.undoDict (reasonVar, reasonVal) (v, value) }

/-- `Variable.restoreVal`: append the value back onto the working set. -/
def restoreVal (s : St) (v : Nat) (value : Val) : St :=
  updateVar s v (fun vs => { vs with curdom := vs.curdom ++ [value] })

/-- `Variable.restoreValues` (static): replay the ledger entry for the reason
key, re-inserting each recorded value, then delete the entry; no effect when
the key is absent. -/
def restoreValues (s : St) (reasonVar : Nat) (reasonVal : Val) : St :=
  match ledgerGet s.undoDict (reasonVar, reasonVal) with
  | none => s
  | some entries =>
    let s1 := entries.foldl (fun st p => restoreVal st p.1 p.2) s
    { s1 with undoDict := ledgerDel s1.undoDict (reasonVar, reasonVal) }

/-- `Variable.restoreCurDomain` -/
def restoreCurDomain (s : St) (v : Nat) : St :=
  updateVar s v (fun vs => { vs with curdom := vs.dom })

/-- `Variable.reset` -/
def reset (s : St) (v : Nat) : St := unAssign (restoreCurDomain s v) v

/-- `Variable.clearUndoDict` (static): its body `undoDict = dict()` binds a
LOCAL name; the class attribute `Variable.undoDict` is not touched, so the
state is returned unchanged. -/
def clearUndoDict (s : St) : St :=
  let _undoDict : Ledger := []
  s

/-!
The generic support search `findvals` / `findvals_`.

`findvals_` pops the LAST variable off `remainingVars`, so it processes the
reversed list from its head; `findvalsRev` is that recursion written
structurally on the reversed list.  The trial assignment is a list of
(variable index, value) pairs, appended at the end exactly as the Python
`assignment.append((var, val))` does, and every candidate value is drawn
from the variable's `curDomain()` (the assigned value alone for an assigned
variable).  The result is `true` at the first complete assignment passing
`finalTestfn`, provided every intermediate extension passed the partial
test (`partialTestfn` in the source, `ptestfn` here).
-/

def findvalsRev (vinfo : Nat → VarState) (finalTestfn ptestfn : List (Nat × Val) → Bool) :
    List Nat → List (Nat × Val) → Bool
  | [], assignment => finalTestfn assignment
  | var :: rest, assignment =>
    (curDomain (vinfo var)).any (fun val =>
      ptestfn (assignment ++ [(var, val)]) &&
        findvalsRev vinfo finalTestfn ptestfn rest (assignment ++ [(var, val)]))

/-- `findvals_`: recursive DFS over one value per remaining variable, popping
variables from the end of the list. -/
def findvals_ (vinfo : Nat → VarState) (remainingVars : List Nat)
    (assignment : List (Nat × Val)) (finalTestfn ptestfn : List (Nat × Val) → Bool) : Bool :=
  findvalsRev vinfo finalTestfn ptestfn remainingVars.reverse assignment

/-- Stable insertion keeping larger keys first; together with `stableSortDesc`
this reproduces Python's stable `list.sort(reverse=True, key=...)`. -/
def insertDesc (key : Nat → Nat) (x : Nat) : List Nat → List Nat
  | [] => [x]
  | y :: ys => if key x ≥ key y then x :: y :: ys else y :: insertDesc key x ys

def stableSortDesc (key : Nat → Nat) : List Nat → List Nat
  | [] => []
  | x :: xs => insertDesc key x (stableSortDesc key xs)

/-- `findvals`: sort the remaining variables by descending current-domain size
(stable, as Python's sort), then run `findvals_`. -/
def findvals (vinfo : Nat → VarState) (remainingVars : List Nat)
    (assignment : List (Nat × Val)) (finalTestfn ptestfn : List (Nat × Val) → Bool) : Bool :=
  findvals_ vinfo (stableSortDesc (fun v => curDomainSize (vinfo v)) remainingVars)
    assignment finalTestfn ptestfn

/-- All complete extensions of `assignment` over the reversed remaining
variables, in the order `findvalsRev` explores them (specification helper;
`completions` below matches `findvals_`'s variable order). -/
def completionsRev (vinfo : Nat → VarState) (assignment : List (Nat × Val)) :
    List Nat → List (List (Nat × Val))
  | [] => [assignment]
  | var :: rest =>
    ((curDomain (vinfo var)).map (fun val =>
      completionsRev vinfo (assignment ++ [(var, val)]) rest)).flatten

/-- All complete extensions of the seed `assignment`, one value from each
remaining variable's current domain, in `findvals_`'s processing order. -/
def completions (vinfo : Nat → VarState) (assignment : List (Nat × Val))
    (remainingVars : List Nat) : List (List (Nat × Val)) :=
  completionsRev vinfo assignment remainingVars.reverse

/-!
Constraints.  The program builds three kinds (`water_constraints`, i.e. the
NValues count-range constraint, and the row/column line-count constraints);
a constraint is identified inside a CSP by its index in the constraint list.
-/

inductive Cnstr where
  | water (scope : List Nat) (required : List Val) (lb ub : Nat)
  | row (scope : List Nat) (target : Nat)
  | col (scope : List Nat) (target : Nat)

instance : Inhabited Cnstr := ⟨Cnstr.row [] 0⟩

def Cnstr.scope : Cnstr → List Nat
  | .water sc _ _ _ => sc
  | .row sc _ => sc
  | .col sc _ => sc

/-- Values of the scope variables if all are assigned, else `none`
(`check` methods return `True` as soon as some scope variable is
unassigned). -/
def allAssignedVals (s : St) : List Nat → Option (List Val)
  | [] => some []
  | v :: rest =>
    match (getVar s v).value with
    | none => none
    | some xv =>
      match allAssignedVals s rest with
      | none => none
      | some l => some (xv :: l)

/-- `water_constraints.check`: `True` while any scope variable is unassigned,
else `lb <= (count of assigned values in required) <= ub`. -/
def water_check (s : St) (scope : List Nat) (required : List Val) (lb ub : Nat) : Bool :=
  match allAssignedVals s scope with
  | none => true
  | some assignments =>
    let rv_count := (assignments.filter (fun v => required.contains v)).length
    decide (lb ≤ rv_count) && decide (rv_count ≤ ub)

/-- `valsOK` inside `water_constraints.hasSupport`: optimistic/pessimistic
count-range test on a partial assignment (the `least` bound is an integer
difference, as in Python). -/
def valsOK (required : List Val) (arity lb ub : Nat) (l : List (Nat × Val)) : Bool :=
  let vals := l.map Prod.snd
  let rv_count := (vals.filter (fun v => required.contains v)).length
  let least : Int := (rv_count : Int) + (arity : Int) - (vals.length : Int)
  decide ((lb : Int) ≤ least) && decide (rv_count ≤ ub)

/-- `check_rows` inside `row_constraints.hasSupport`: counts cells assigned
'S'; `<= target` while the line is partially assigned, `== target` once the
assignment covers the whole scope. -/
def check_rows (scopeLen target : Nat) (l : List (Nat × Val)) : Bool :=
  let ship_parts := (l.filter (fun p => p.snd == ('S'))).length
  if l.length < scopeLen then decide (ship_parts ≤ target)
  else decide (ship_parts = target)

/-- `check_cols` inside `col_constraints.hasSupport`: counts cells assigned a
ship character; NOTE both branches of the source use `<= target` (the
fully-assigned branch too). -/
def check_cols (scopeLen target : Nat) (l : List (Nat × Val)) : Bool :=
  let ship_parts := (l.filter (fun p =>
    p.snd == ('S') || p.snd == ('M') || p.snd == ('<') ||
    p.snd == ('>') || p.snd == ('^') || p.snd == ('v'))).length
  if l.length < scopeLen then decide (ship_parts ≤ target)
  else decide (ship_parts ≤ target)

/-- `hasSupport` of the three constraint kinds: vacuous support for a variable
outside the scope, otherwise the generic support search seeded with
`[(var, val)]` over the scope minus `var`, with the kind's test functions
used as both final and partial test (exactly as the source passes them). -/
def hasSupport (s : St) (c : Cnstr) (var : Nat) (val : Val) : Bool :=
  match c with
  | .water sc required lb ub =>
    if var ∈ sc then
      findvals (fun i => getVar s i) (sc.erase var) [(var, val)]
        (valsOK required sc.length lb ub) (valsOK required sc.length lb ub)
    else true
  | .row sc target =>
    if var ∈ sc then
      findvals (fun i => getVar s i) (sc.erase var) [(var, val)]
        (check_rows sc.length target) (check_rows sc.length target)
    else true
  | .col sc target =>
    if var ∈ sc then
      findvals (fun i => getVar s i) (sc.erase var) [(var, val)]
        (check_cols sc.length target) (check_cols sc.length target)
    else true

/-!
The CSP container and the GAC propagator `CSP.gac_enforce`.

The worklist holds constraint indices; `constraints.pop()` pops the LAST
element, and re-enqueued constraints are appended at the end after an
`in`-membership check against the current worklist.  The inner
`for val in var._curdom` loop iterates the LIVE list by index, exactly as
CPython does, so removing the current element shifts later elements left and
the next index skips one value; `valLoopF` reproduces this with an explicit
index into the current domain.  The loop body runs at most (initial length
of the current domain) times because the index grows by one per step while
the list never grows, so that number is passed as structural fuel (the
fuel-exhausted clause coincides with the loop-exit condition
`i ≥ curdom.length`; see `valLoopF_fuel_irrelevant`).  The outer `while`
is fuelled too, and `gacEnforceBound` supplies fuel proven sufficient in
the termination theorem.
-/

structure CSP where
  constraints : List Cnstr

/-- `CSP.constraintsOf`: indices of the constraints whose scope mentions the
variable (the source precomputes this index at construction). -/
def constraintsOf (csp : CSP) (v : Nat) : List Nat :=
  (List.range csp.constraints.length).filter
    (fun i => decide (v ∈ (csp.constraints.getD i default).scope))

/-- `constraints.append(c2)` for each `c2` touching the pruned variable, with
`c2 != c and not c2 in constraints` checked against the growing list. -/
def enqueue (cs : List Nat) (c : Nat) (wl : List Nat) : List Nat :=
  cs.foldl (fun w c2 => if c2 ≠ c ∧ c2 ∉ w then w ++ [c2] else w) wl

/-- Outcome of processing one scope variable inside `gac_enforce`: either the
early `return "DWO"` or the updated worklist and state. -/
inductive GacStep where
  | dwo (s : St)
  | cont (wl : List Nat) (s : St)

/-- The `for val in var._curdom` loop of `gac_enforce` for scope variable `v`
of constraint index `c`: test support, prune on failure, signal `"DWO"` when
the (stale) `curdom_size` counter reads zero, else re-enqueue the other
constraints on `v`. -/
def valLoopF (csp : CSP) (reasonVar : Nat) (reasonVal : Val) (c v : Nat) :
    Nat → Nat → List Nat → St → GacStep
  | 0, _, wl, s => .cont wl s
  | fuel + 1, i, wl, s =>
    let cd := (getVar s v).curdom
    if h : i < cd.length then
      let val := cd.get ⟨i, h⟩
      if hasSupport s (csp.constraints.getD c default) v val then
        valLoopF csp reasonVar reasonVal c v fuel (i + 1) wl s
      else
        let s' := pruneValue s v val reasonVar reasonVal
        if (getVar s' v).curdom_size = 0 then .dwo s'
        else valLoopF csp reasonVar reasonVal c v fuel (i + 1)
          (enqueue (constraintsOf csp v) c wl) s'
    else .cont wl s

/-- The `for var in c.scope()` loop of `gac_enforce`. -/
def varLoop (csp : CSP) (reasonVar : Nat) (reasonVal : Val) (c : Nat) :
    List Nat → List Nat → St → GacStep
  | [], wl, s => .cont wl s
  | v :: vs, wl, s =>
    match valLoopF csp reasonVar reasonVal c v ((getVar s v).curdom.length) 0 wl s with
    | .dwo s' => .dwo s'
    | .cont wl' s' => varLoop csp reasonVar reasonVal c vs wl' s'

/-- The `while len(constraints) > 0` loop of `CSP.gac_enforce`, fuelled. -/
def gac_enforce_aux (csp : CSP) (reasonVar : Nat) (reasonVal : Val) :
    Nat → List Nat → St → Option (String × St)
  | _, [], s => some (("OK"), s)
  | 0, _ :: _, _ => none
  | fuel + 1, wl@(_ :: _), s =>
    let c := wl.getLastD 0
    let wl1 := wl.dropLast
    match varLoop csp reasonVar reasonVal c ((csp.constraints.getD c default).scope) wl1 s with
    | .dwo s' => some (("DWO"), s')
    | .cont wl2 s' => gac_enforce_aux csp reasonVar reasonVal fuel wl2 s'

/-- Total size of all current domains. -/
def totalCurdom (s : St) : Nat := (s.vars.map (fun vs => vs.curdom.length)).sum

/-- Fuel sufficient for `gac_enforce_aux` to reach `"OK"` or `"DWO"`: every
while-iteration either shrinks the worklist without pruning, or strictly
shrinks some current domain while enqueueing at most `|constraints|` new
worklist entries per prune. -/
def gacEnforceBound (csp : CSP) (wl : List Nat) (s : St) : Nat :=
  totalCurdom s * (csp.constraints.length + 1) + wl.length + 1

/-- `CSP.gac_enforce` (the default is never used: the bound is sufficient). -/
def gac_enforce (csp : CSP) (reasonVar : Nat) (reasonVal : Val)
    (constraints : List Nat) (s : St) : String × St :=
  (gac_enforce_aux csp reasonVar reasonVal (gacEnforceBound csp constraints s)
    constraints s).getD (("OK"), s)

/-!
`check_ship_constraints` and its string helpers.  Strings are `List Char`;
`pyReplace`, `pyCount` and `pyZipStar` reproduce Python's non-overlapping
left-to-right `str.replace`, `str.count` and truncating `zip(*lists)`.  Each
is written with structural fuel chosen so it never runs out: every step of
`pyReplace`/`pyCount` consumes at least one character of `s`, and every step
of `pyZipStar` drops one element from each row.
-/

/-- The parts of the puzzle `State` that `check_ship_constraints` reads:
the dimension, the fleet-composition vector, and the pre-search hints
`(row, col, original character)`. -/
structure PState where
  dim : Nat
  ship_constraints : List Nat
  hints : List (Nat × Nat × Val)

/-- `pre` is a prefix of `s` (Python's `str.startswith`, used for the
replace/count scans). -/
def listStartsWith : List Char → List Char → Bool
  | _, [] => true
  | [], _ :: _ => false
  | a :: as_, b :: bs => a == b && listStartsWith as_ bs

def pyReplaceF : Nat → List Char → List Char → List Char → List Char
  | 0, s, _, _ => s
  | fuel + 1, s, old, new =>
    if old.isEmpty then s
    else if listStartsWith s old then new ++ pyReplaceF fuel (s.drop old.length) old new
    else
      match s with
      | [] => []
      | ch :: rest => ch :: pyReplaceF fuel rest old new

/-- Python `s.replace(old, new)` for nonempty `old`: non-overlapping,
left to right. -/
def pyReplace (s old new : List Char) : List Char := pyReplaceF s.length s old new

def pyCountF : Nat → List Char → List Char → Nat
  | 0, _, _ => 0
  | fuel + 1, s, sub =>
    if sub.isEmpty then s.length + 1
    else if listStartsWith s sub then 1 + pyCountF fuel (s.drop sub.length) sub
    else
      match s with
      | [] => 0
      | _ :: rest => pyCountF fuel rest sub

/-- Python `s.count(sub)`: non-overlapping occurrences. -/
def pyCount (s sub : List Char) : Nat := pyCountF (s.length + 1) s sub

def splitlinesAux : List Char → List Char → List (List Char)
  | [], cur => if cur.isEmpty then [] else [cur]
  | ch :: rest, cur =>
    if ch == ('\n') then cur :: splitlinesAux rest []
    else splitlinesAux rest (cur ++ [ch])

/-- Python `s.splitlines()` for strings whose only line break is `'\n'`. -/
def splitlines (s : List Char) : List (List Char) := splitlinesAux s []

def pyZipStarF : Nat → List (List Char) → List (List Char)
  | 0, _ => []
  | fuel + 1, b =>
    if b.isEmpty then []
    else if b.any (fun l => l.isEmpty) then []
    else (b.map (fun l => l.headD (' '))) :: pyZipStarF fuel (b.map (fun l => l.drop 1))

/-- Python `list(zip(*b))`: transpose truncated at the shortest row. -/
def pyZipStar (b : List (List Char)) : List (List Char) :=
  pyZipStarF ((b.headD []).length + 1) b

/-- `convert_to_str`: concatenate the rows, each followed by a newline. -/
def convert_to_str (board : List (List Val)) : List Char :=
  (board.map (fun row => row ++ [('\n')])).flatten

/-- `implement_assignment`: start from a `dim × dim` board of `'0'` and write
each assigned value at its variable's (y, x) cell (out-of-range writes, which
would raise in Python, are dropped). -/
def implement_assignment (assignment : List (VarState × Val)) (ps : PState) :
    List (List Val) :=
  let new_board := List.replicate ps.dim (List.replicate ps.dim (('0') : Val))
  assignment.foldl (fun b p => b.set p.1.y ((b.getD p.1.y []).set p.1.x p.2)) new_board

/-- `check_ship_constraints`: rewrite maximal horizontal/vertical runs of
`'S'` into oriented ship markers, reject overlapping ships and misplaced
hints, and accept exactly when the counts of 1-, 2-, 3- and 4-cell ships
equal the puzzle's fleet-composition vector (out-of-range reads, which would
raise in Python, yield a space).  Returns `(True, solution board)` or
`(False, message)`. -/
def check_ship_constraints (assignment : List (VarState × Val)) (ps : PState) :
    Bool × List Char :=
  let submarines := ps.ship_constraints.getD 0 0
  let destroyers := ps.ship_constraints.getD 1 0
  let cruisers := ps.ship_constraints.getD 2 0
  let battleships := ps.ship_constraints.getD 3 0
  let new_board := implement_assignment assignment ps
  let rows_list := new_board
  let rows := convert_to_str rows_list
  let cols_list := pyZipStar rows_list
  let cols := convert_to_str cols_list
  let rows := pyReplace rows (("SSSS").toList) (("<MM>").toList)
  let rows := pyReplace rows (("SSS").toList) (("<M>").toList)
  let rows := pyReplace rows (("SS").toList) (("<>").toList)
  let cols := pyReplace cols (("SSSS").toList) (("^MMv").toList)
  let cols := pyReplace cols (("SSS").toList) (("^Mv").toList)
  let cols := pyReplace cols (("SS").toList) (("^v").toList)
  let bad_cases :=
    pyCount rows (("><").toList) + pyCount rows ((">S").toList) +
    pyCount rows (("S<").toList) + pyCount cols (("v^").toList) +
    pyCount cols (("vS").toList) + pyCount cols (("S^").toList)
  if bad_cases > 0 then (false, ("Error: Ships overlap.").toList)
  else
    let dim := rows_list.length
    let destroyers_count := pyCount rows (("<>").toList) + pyCount cols (("^v").toList)
    let cruisers_count := pyCount rows (("<M>").toList) + pyCount cols (("^Mv").toList)
    let battleships_count := pyCount rows (("<MM>").toList) + pyCount cols (("^MMv").toList)
    let cols_list := (List.range dim).map (fun i => (splitlines cols).getD i [])
    let cols_list := pyZipStar cols_list
    let cols := convert_to_str cols_list
    let sol_board := (List.range rows.length).map (fun i =>
      let cc := cols.getD i (' ')
      if cc ∈ [('S'), ('.'), ('\n')] then rows.getD i (' ') else cc)
    let submarines_count := pyCount sol_board (("S").toList)
    let sol_string := pyReplace sol_board (("\n").toList) []
    if ps.hints.all (fun h => (sol_string.getD (h.1 * dim + h.2.1) (' ')) == h.2.2) then
      if submarines_count = submarines ∧ destroyers_count = destroyers ∧
          cruisers_count = cruisers ∧ battleships_count = battleships then
        (true, sol_board)
      else (false, ("wrong").toList)
    else (false, ("Error: Hint is not in the correct place.").toList)

/-!
The search driver `CSP.gac`.

`unassignedvars.pop()` takes the LAST element, so the driver processes the
reversed list from its head (`gacRev`).  The inner `for val in
var.curDomain()` loop is `gacVals`, parameterised by the recursive call on
the remaining variables; its value list is the snapshot `curDomain()` taken
before the loop.  On `"DWO"` or on recursive failure the prunings recorded
under the reason `(var, val)` are restored and the next value is tried; when
the values are exhausted the variable is unassigned and `False` is returned
(the Python also pushes the variable back on the caller's list, which the
caller here still owns).  At a complete assignment, the assigned dictionary
is collected in variable order and `check_ship_constraints` decides between
recording the solution and returning `True`, or returning `False`.
-/

/-- The assigned variables of the CSP in variable order, with their values
(`assigned` in `CSP.gac`; the variable state carries the x/y coordinates
that `implement_assignment` reads). -/
def assignedOf (s : St) : List (VarState × Val) :=
  s.vars.filterMap (fun vs => vs.value.map (fun xv => (vs, xv)))

/-- The `for val in var.curDomain()` loop of `CSP.gac` for variable `v`;
`tryRec` is the recursive `self.gac(unassignedvars, state)` call. -/
def gacVals (csp : CSP) (v : Nat)
    (tryRec : St → List Char → Bool × St × List Char) :
    List Val → St → List Char → Bool × St × List Char
  | [], s, sol => (false, unAssign s v, sol)
  | val :: more, s, sol =>
    let s1 := setValue s v (some val)
    let r := gac_enforce csp v val (constraintsOf csp v) s1
    if r.fst = ("DWO") then
      gacVals csp v tryRec more (restoreValues r.snd v val) sol
    else
      let rec1 := tryRec r.snd sol
      if rec1.fst then rec1
      else gacVals csp v tryRec more (restoreValues rec1.snd.fst v val) rec1.snd.snd

/-- `CSP.gac` on the reversed unassigned-variable stack (head = next pop). -/
def gacRev (csp : CSP) (ps : PState) : List Nat → St → List Char → Bool × St × List Char
  | [], s, sol =>
    let assigned := assignedOf s
    let try_it := check_ship_constraints assigned ps
    if try_it.fst then (true, s, sol ++ try_it.snd) else (false, s, sol)
  | v :: rest, s, sol =>
    gacVals csp v (fun s2 sol2 => gacRev csp ps rest s2 sol2)
      (curDomain (getVar s v)) s sol

/-- `CSP.gac`: backtracking search with GAC propagation; returns whether a
solution was found, the final state, and the accumulated `self.solution`
string. -/
def gac (csp : CSP) (ps : PState) (unassignedvars : List Nat) (s : St)
    (sol : List Char) : Bool × St × List Char :=
  gacRev csp ps unassignedvars.reverse s sol

/-!
`select_unassigned_variable`: seed with the first unassigned variable, then
scan all variables, replacing the candidate whenever a variable's stored
`curdom_size` counter is strictly smaller and the variable is unassigned.
-/

def select_unassigned_variable (s : St) : Option Nat :=
  match (List.range s.vars.length).find? (fun i => ! isAssigned (getVar s i)) with
  | none => none
  | some b0 =>
    some ((List.range s.vars.length).foldl
      (fun best i =>
        if (getVar s i).curdom_size < (getVar s best).curdom_size ∧
            isAssigned (getVar s i) = false then i
        else best) b0)

/-!
Prune sequences under one reason key (for reasoning about the undo ledger).
-/

/-- The prunes `prunes`, each recorded under reason `(rv, rl)`, applied in
order. -/
def applyPrunes (rv : Nat) (rl : Val) (prunes : List (Nat × Val)) (s : St) : St :=
  prunes.foldl (fun st p => pruneValue st p.1 p.2 rv rl) s

/-- Every listed prune removes a value present in its variable's current
domain at the moment it is applied. -/
def prunesValid (rv : Nat) (rl : Val) : St → List (Nat × Val) → Bool
  | _, [] => true
  | s, p :: rest =>
    (getVar s p.1).curdom.contains p.2 &&
      prunesValid rv rl (pruneValue s p.1 p.2 rv rl) rest

/-- The values pruned from (or restored to) variable `v` in a recorded
entry list, in order. -/
def valsFor (v : Nat) (prunes : List (Nat × Val)) : List Val :=
  (prunes.filter (fun p => decide (p.1 = v))).map Prod.snd

/-!
Concrete instances used by the concrete checks below.
-/

/-- One unassigned cell with domain `{'S', '.'}` and two contradictory
single-cell row constraints (targets 0 and 1), so propagation must prune the
whole domain. -/
def sC1 : St := { vars := [mkVar [('S'), ('.')] 0 0], undoDict := [] }

def cspC1 : CSP := { constraints := [Cnstr.row [0] 0, Cnstr.row [0] 1] }

/-- Every variable unassigned with current domain `['S']`. -/
def vinfoW : Nat → VarState :=
  fun _ => { mkVar [('S'), ('.')] 0 0 with curdom := [('S')] }

/-- Cell 0 untouched, cell 1 pruned down to `['.']`; both unassigned. -/
def sC3 : St :=
  { vars := [mkVar [('S'), ('.')] 0 0,
             { mkVar [('S'), ('.')] 1 0 with curdom := [('.')] }],
    undoDict := [] }

/-- Cell 0 assigned `'S'`, cell 1 assigned `'.'`. -/
def sC5 : St :=
  { vars := [{ mkVar [('S'), ('.')] 0 0 with value := some ('S') },
             { mkVar [('S'), ('.')] 1 0 with value := some ('.') }],
    undoDict := [] }

/-- One unassigned cell whose current domain is `['.']` only. -/
def sC8 : St := { vars := [mkVar [('.')] 0 0], undoDict := [] }

/-- Two cells with domain `{'S', '.'}`; cell 1's current domain was pruned to
`['S']` (size 1) while both `curdom_size` counters still read 2. -/
def sC9 : St :=
  { vars := [mkVar [('S'), ('.')] 0 0,
             { mkVar [('S'), ('.')] 1 0 with curdom := [('S')] }],
    undoDict := [] }

/-- Two cells with domain `{'S', '.'}`, empty ledger (for the restore check). -/
def sC6 : St :=
  { vars := [mkVar [('S'), ('.')] 0 0, mkVar [('S'), ('.')] 1 0], undoDict := [] }

/-- A 1×1 puzzle asking for one submarine, with a single unconstrained cell. -/
def sW2 : St := { vars := [mkVar [('S'), ('.')] 0 0], undoDict := [] }

def cspW2 : CSP := { constraints := [] }

def psW2 : PState := { dim := 1, ship_constraints := [1, 0, 0, 0], hints := [] }

/-!
### Helper lemmas
-/

theorem vars_length_updateVar (s : St) (v : Nat) (f : VarState → VarState) :
    (updateVar s v f).vars.length = s.vars.length := by
  simp [updateVar]

theorem undoDict_updateVar (s : St) (v : Nat) (f : VarState → VarState) :
    (updateVar s v f).undoDict = s.undoDict := rfl

theorem getVar_out (s : St) (v : Nat) (h : s.vars.length ≤ v) :
    getVar s v = default := by
  simp [getVar, List.getD_eq_getElem?_getD, List.getElem?_eq_none h]

theorem getVar_updateVar_self (s : St) (v : Nat) (f : VarState → VarState)
    (h : v < s.vars.length) :
    getVar (updateVar s v f) v = f (getVar s v) := by
  simp [getVar, updateVar, List.getD_eq_getElem?_getD, List.getElem?_set_self, h]

theorem getVar_updateVar_ne (s : St) (v w : Nat) (f : VarState → VarState)
    (h : w ≠ v) :
    getVar (updateVar s v f) w = getVar s w := by
  simp [getVar, updateVar, List.getD_eq_getElem?_getD, List.getElem?_set_ne (by omega : v ≠ w)]

theorem updateVar_out (s : St) (v : Nat) (f : VarState → VarState)
    (h : s.vars.length ≤ v) :
    updateVar s v f = s := by
  cases s with
  | mk vars undo => simp [updateVar, List.set_eq_of_length_le (by simpa using h)]

theorem curdom_default : (default : VarState).curdom = [] := rfl

theorem getVar_in_range_of_curdom_ne (s : St) (v : Nat)
    (h : (getVar s v).curdom ≠ []) : v < s.vars.length := by
  by_contra hc
  exact h (by rw [getVar_out s v (by omega)]; rfl)

theorem pruneValue_undoDict (s : St) (v : Nat) (xv : Val) (rv : Nat) (rl : Val) :
    (pruneValue s v xv rv rl).undoDict = ledgerAdd s.undoDict (rv, rl) (v, xv) := rfl

theorem pruneValue_vars_length (s : St) (v : Nat) (xv : Val) (rv : Nat) (rl : Val) :
    (pruneValue s v xv rv rl).vars.length = s.vars.length := by
  simp [pruneValue, updateVar]

theorem getVar_pruneValue (s : St) (v w : Nat) (xv : Val) (rv : Nat) (rl : Val) :
    getVar (pruneValue s v xv rv rl) w = getVar (updateVar s v
      (fun vs => { vs with curdom := vs.curdom.erase xv })) w := rfl

theorem getVar_pruneValue_ne (s : St) (v w : Nat) (xv : Val) (rv : Nat) (rl : Val)
    (h : w ≠ v) :
    getVar (pruneValue s v xv rv rl) w = getVar s w := by
  rw [getVar_pruneValue, getVar_updateVar_ne s v w _ h]

theorem getVar_pruneValue_self (s : St) (v : Nat) (xv : Val) (rv : Nat) (rl : Val)
    (h : v < s.vars.length) :
    getVar (pruneValue s v xv rv rl) v =
      { getVar s v with curdom := (getVar s v).curdom.erase xv } := by
  rw [getVar_pruneValue, getVar_updateVar_self s v _ h]

theorem ledgerGet_ledgerAdd (L : Ledger) (k : Nat × Val) (p : Nat × Val)
    (k' : Nat × Val) :
    ledgerGet (ledgerAdd L k p) k' =
      if k' = k then some ((ledgerGet L k).getD [] ++ [p])
      else ledgerGet L k' := by
  induction L with
  | nil =>
    by_cases h : k' = k
    · simp [ledgerAdd, ledgerGet, h]
    · simp [ledgerAdd, ledgerGet, h, Ne.symm h]
  | cons e rest ih =>
    obtain ⟨ek, ev⟩ := e
    by_cases he : ek = k
    · subst he
      by_cases h : k' = ek
      · subst h
        simp [ledgerAdd, ledgerGet]
      · simp [ledgerAdd, ledgerGet, h, Ne.symm h]
    · by_cases he' : ek = k'
      · subst he'
        simp [ledgerAdd, ledgerGet, he, Ne.symm he]
      · by_cases h : k' = k
        · subst h
          simpa [ledgerAdd, ledgerGet, he, he'] using ih
        · simp [ledgerAdd, ledgerGet, he, he', h, ih]

theorem ledgerGet_none_del (L : Ledger) (k : Nat × Val)
    (h : ledgerGet L k = none) : ledgerDel L k = L := by
  induction L with
  | nil => rfl
  | cons e rest ih =>
    by_cases he : e.1 = k
    · simp [ledgerGet, he] at h
    · simp [ledgerGet, he] at h
      simp [ledgerDel, he, ih h]

/-- The invariant "looking the key up after deleting it yields nothing"
(i.e. the key occurs at most once) is preserved by `ledgerAdd` at that key. -/
theorem delGetNone_ledgerAdd (L : Ledger) (k : Nat × Val) (p : Nat × Val)
    (h : ledgerGet (ledgerDel L k) k = none) :
    ledgerGet (ledgerDel (ledgerAdd L k p) k) k = none := by
  induction L with
  | nil => simp [ledgerAdd, ledgerDel, ledgerGet]
  | cons e rest ih =>
    by_cases he : e.1 = k
    · simp [ledgerDel, he] at h
      simp [ledgerAdd, ledgerDel, he, h]
    · simp [ledgerDel, he, ledgerGet] at h
      simp [ledgerDel, ledgerAdd, he, ledgerGet, ih h]

theorem valsFor_cons (v : Nat) (p : Nat × Val) (rest : List (Nat × Val)) :
    valsFor v (p :: rest) =
      if p.1 = v then p.2 :: valsFor v rest else valsFor v rest := by
  by_cases h : p.1 = v <;> simp [valsFor, h]

theorem applyPrunes_cons (rv : Nat) (rl : Val) (p : Nat × Val)
    (rest : List (Nat × Val)) (s : St) :
    applyPrunes rv rl (p :: rest) s =
      applyPrunes rv rl rest (pruneValue s p.1 p.2 rv rl) := by
  simp [applyPrunes]

theorem applyPrunes_vars_length (rv : Nat) (rl : Val) :
    ∀ (prunes : List (Nat × Val)) (s : St),
      (applyPrunes rv rl prunes s).vars.length = s.vars.length := by
  intro prunes
  induction prunes with
  | nil => intro s; simp [applyPrunes]
  | cons p rest ih =>
    intro s
    rw [applyPrunes_cons, ih, pruneValue_vars_length]

theorem prunesValid_in_range (rv : Nat) (rl : Val) :
    ∀ (prunes : List (Nat × Val)) (s : St),
      prunesValid rv rl s prunes = true → ∀ p ∈ prunes, p.1 < s.vars.length := by
  intro prunes
  induction prunes with
  | nil =>
    intro s _ p hp
    exact absurd hp (List.not_mem_nil p)
  | cons q rest ih =>
    intro s hv p hp
    simp only [prunesValid, Bool.and_eq_true] at hv
    rcases List.mem_cons.mp hp with rfl | hp'
    · refine getVar_in_range_of_curdom_ne s p.1 (fun hnil => ?_)
      rw [hnil] at hv
      simpa using hv.1
    · have := ih _ hv.2 p hp'
      rwa [pruneValue_vars_length] at this

theorem applyPrunes_ledger (rv : Nat) (rl : Val) :
    ∀ (prunes : List (Nat × Val)) (s : St) (pre : List (Nat × Val)),
      ledgerGet s.undoDict (rv, rl) = some pre →
      ledgerGet (applyPrunes rv rl prunes s).undoDict (rv, rl) = some (pre ++ prunes) := by
  intro prunes
  induction prunes with
  | nil =>
    intro s pre h
    simpa [applyPrunes] using h
  | cons p rest ih =>
    intro s pre h
    rw [applyPrunes_cons]
    have hstep : ledgerGet (pruneValue s p.1 p.2 rv rl).undoDict (rv, rl) =
        some (pre ++ [p]) := by
      rw [pruneValue_undoDict, ledgerGet_ledgerAdd]
      simp [h]
    rw [ih _ _ hstep]
    simp

theorem applyPrunes_ledger_none (rv : Nat) (rl : Val) (prunes : List (Nat × Val))
    (s : St) (h : ledgerGet s.undoDict (rv, rl) = none) (hne : prunes ≠ []) :
    ledgerGet (applyPrunes rv rl prunes s).undoDict (rv, rl) = some prunes := by
  cases prunes with
  | nil => exact absurd rfl hne
  | cons p rest =>
    rw [applyPrunes_cons]
    have hstep : ledgerGet (pruneValue s p.1 p.2 rv rl).undoDict (rv, rl) =
        some ([] ++ [p]) := by
      rw [pruneValue_undoDict, ledgerGet_ledgerAdd]
      simp [h]
    rw [applyPrunes_ledger rv rl rest _ [p] (by simpa using hstep)]
    simp

theorem applyPrunes_delGetNone (rv : Nat) (rl : Val) :
    ∀ (prunes : List (Nat × Val)) (s : St),
      ledgerGet (ledgerDel s.undoDict (rv, rl)) (rv, rl) = none →
      ledgerGet (ledgerDel (applyPrunes rv rl prunes s).undoDict (rv, rl)) (rv, rl) = none := by
  intro prunes
  induction prunes with
  | nil =>
    intro s h
    simpa [applyPrunes] using h
  | cons p rest ih =>
    intro s h
    rw [applyPrunes_cons]
    refine ih _ ?_
    rw [pruneValue_undoDict]
    exact delGetNone_ledgerAdd _ _ _ h

theorem applyPrunes_curdom_multiset (rv : Nat) (rl : Val) :
    ∀ (prunes : List (Nat × Val)) (s : St), prunesValid rv rl s prunes = true →
      ∀ v, ((getVar (applyPrunes rv rl prunes s) v).curdom : Multiset Val) +
          (valsFor v prunes : Multiset Val) =
        ((getVar s v).curdom : Multiset Val) := by
  intro prunes
  induction prunes with
  | nil =>
    intro s _ v
    simp [applyPrunes, valsFor]
  | cons p rest ih =>
    intro s hv v
    simp only [prunesValid, Bool.and_eq_true] at hv
    have hmem : p.2 ∈ (getVar s p.1).curdom := by
      simpa using hv.1
    have hrange : p.1 < s.vars.length := by
      refine getVar_in_range_of_curdom_ne s p.1 (fun hnil => ?_)
      rw [hnil] at hmem
      exact absurd hmem (List.not_mem_nil p.2)
    rw [applyPrunes_cons, valsFor_cons]
    have := ih (pruneValue s p.1 p.2 rv rl) hv.2 v
    by_cases hpv : p.1 = v
    · subst hpv
      rw [getVar_pruneValue_self s p.1 p.2 rv rl hrange] at this
      rw [if_pos rfl]
      calc ((getVar (applyPrunes rv rl rest (pruneValue s p.1 p.2 rv rl)) p.1).curdom
              : Multiset Val) + ((p.2 :: valsFor p.1 rest : List Val) : Multiset Val)
          = p.2 ::ₘ (((getVar (applyPrunes rv rl rest (pruneValue s p.1 p.2 rv rl))
              p.1).curdom : Multiset Val) + (valsFor p.1 rest : Multiset Val)) := by
            rw [← Multiset.cons_coe, Multiset.add_cons]
        _ = p.2 ::ₘ (((getVar s p.1).curdom.erase p.2 : List Val) : Multiset Val) := by
            rw [this]
        _ = ((getVar s p.1).curdom : Multiset Val) := by
            rw [← Multiset.coe_erase]
            exact Multiset.cons_erase (Multiset.mem_coe.mpr hmem)
    · rw [if_neg hpv]
      rwa [getVar_pruneValue_ne s p.1 v p.2 rv rl (fun h => hpv h.symm)] at this

theorem restoreFold_undoDict :
    ∀ (entries : List (Nat × Val)) (s : St),
      (entries.foldl (fun st p => restoreVal st p.1 p.2) s).undoDict = s.undoDict := by
  intro entries
  induction entries with
  | nil => intro s; rfl
  | cons p rest ih =>
    intro s
    simpa using ih (restoreVal s p.1 p.2)

theorem restoreFold_curdom :
    ∀ (entries : List (Nat × Val)) (s : St),
      (∀ p ∈ entries, p.1 < s.vars.length) →
      ∀ v, (getVar (entries.foldl (fun st p => restoreVal st p.1 p.2) s) v).curdom
        = (getVar s v).curdom ++ valsFor v entries := by
  intro entries
  induction entries with
  | nil =>
    intro s _ v
    simp [valsFor]
  | cons p rest ih =>
    intro s hin v
    have hr : p.1 < s.vars.length := hin p (List.mem_cons_self p rest)
    have hlen : (restoreVal s p.1 p.2).vars.length = s.vars.length := by
      simp [restoreVal, updateVar]
    have hin' : ∀ q ∈ rest, q.1 < (restoreVal s p.1 p.2).vars.length := by
      intro q hq
      rw [hlen]
      exact hin q (List.mem_cons_of_mem p hq)
    have hstep : (p :: rest).foldl (fun st q => restoreVal st q.1 q.2) s
        = rest.foldl (fun st q => restoreVal st q.1 q.2) (restoreVal s p.1 p.2) := by
      simp
    rw [hstep, ih _ hin' v, valsFor_cons]
    by_cases hpv : p.1 = v
    · subst hpv
      have : getVar (restoreVal s p.1 p.2) p.1 =
          { getVar s p.1 with curdom := (getVar s p.1).curdom ++ [p.2] } := by
        simp only [restoreVal]
        rw [getVar_updateVar_self s p.1 _ hr]
      rw [this, if_pos rfl]
      simp
    · have : getVar (restoreVal s p.1 p.2) v = getVar s v := by
        simp only [restoreVal]
        exact getVar_updateVar_ne s p.1 v _ (fun h => hpv h.symm)
      rw [this, if_neg hpv]

theorem findvalsRev_sound (vinfo : Nat → VarState)
    (finalTestfn ptestfn : List (Nat × Val) → Bool) :
    ∀ (rv : List Nat) (asgn : List (Nat × Val)),
      findvalsRev vinfo finalTestfn ptestfn rv asgn = true →
      ∃ ext ∈ completionsRev vinfo asgn rv, finalTestfn ext = true := by
  intro rv
  induction rv with
  | nil =>
    intro asgn h
    exact ⟨asgn, by simp [completionsRev], h⟩
  | cons var rest ih =>
    intro asgn h
    simp only [findvalsRev, List.any_eq_true] at h
    obtain ⟨val, hval, hand⟩ := h
    rw [Bool.and_eq_true] at hand
    obtain ⟨ext, hm, hf⟩ := ih _ hand.2
    refine ⟨ext, ?_, hf⟩
    simp only [completionsRev, List.mem_flatten]
    exact ⟨_, List.mem_map_of_mem _ hval, hm⟩

theorem findvalsRev_complete (vinfo : Nat → VarState)
    (finalTestfn ptestfn : List (Nat × Val) → Bool)
    (hp : ∀ l, ptestfn l = true) :
    ∀ (rv : List Nat) (asgn : List (Nat × Val)),
      (∃ ext ∈ completionsRev vinfo asgn rv, finalTestfn ext = true) →
      findvalsRev vinfo finalTestfn ptestfn rv asgn = true := by
  intro rv
  induction rv with
  | nil =>
    intro asgn h
    obtain ⟨ext, hm, hf⟩ := h
    simp only [completionsRev, List.mem_singleton] at hm
    subst hm
    simpa [findvalsRev] using hf
  | cons var rest ih =>
    intro asgn h
    obtain ⟨ext, hm, hf⟩ := h
    simp only [completionsRev, List.mem_flatten] at hm
    obtain ⟨l, hl, hml⟩ := hm
    simp only [List.mem_map] at hl
    obtain ⟨val, hval, rfl⟩ := hl
    simp only [findvalsRev, List.any_eq_true]
    exact ⟨val, hval, by
      rw [Bool.and_eq_true]
      exact ⟨hp _, ih _ ⟨ext, hml, hf⟩⟩⟩

theorem sum_map_set (f : VarState → Nat) :
    ∀ (l : List VarState) (i : Nat) (vs' : VarState) (h : i < l.length),
      ((l.set i vs').map f).sum + f (l.get ⟨i, h⟩) = (l.map f).sum + f vs' := by
  intro l
  induction l with
  | nil =>
    intro i vs' h
    simp at h
  | cons a rest ih =>
    intro i vs' h
    cases i with
    | zero => simp [List.set]; omega
    | succ n =>
      simp only [List.set, List.map_cons, List.sum_cons, List.get_cons_succ]
      have := ih n vs' (by simpa using h)
      omega

theorem getVar_eq_get (s : St) (v : Nat) (h : v < s.vars.length) :
    getVar s v = s.vars.get ⟨v, h⟩ := by
  simp [getVar, List.getD_eq_getElem?_getD, List.getElem?_eq_getElem h]

theorem totalCurdom_pruneValue (s : St) (v : Nat) (xv : Val) (rv : Nat) (rl : Val)
    (h : xv ∈ (getVar s v).curdom) :
    totalCurdom (pruneValue s v xv rv rl) + 1 = totalCurdom s := by
  have hrange : v < s.vars.length := by
    refine getVar_in_range_of_curdom_ne s v (fun hnil => ?_)
    rw [hnil] at h
    exact absurd h (List.not_mem_nil xv)
  have hvars : (pruneValue s v xv rv rl).vars =
      s.vars.set v { getVar s v with curdom := (getVar s v).curdom.erase xv } := rfl
  have hsum := sum_map_set (fun vs => vs.curdom.length) s.vars v
    { getVar s v with curdom := (getVar s v).curdom.erase xv } hrange
  have hget : s.vars.get ⟨v, hrange⟩ = getVar s v := (getVar_eq_get s v hrange).symm
  rw [hget] at hsum
  have herase : ((getVar s v).curdom.erase xv).length + 1 = (getVar s v).curdom.length := by
    rw [List.length_erase_of_mem h]
    have : (getVar s v).curdom.length ≠ 0 := by
      intro hz
      rw [List.length_eq_zero] at hz
      rw [hz] at h
      exact absurd h (List.not_mem_nil xv)
    omega
  simp only [totalCurdom, hvars]
  simp only [totalCurdom] at hsum ⊢
  omega

theorem enqueue_length : ∀ (cs : List Nat) (c : Nat) (wl : List Nat),
    (enqueue cs c wl).length ≤ wl.length + cs.length := by
  intro cs
  induction cs with
  | nil =>
    intro c wl
    simp [enqueue]
  | cons c2 rest ih =>
    intro c wl
    have hstep : enqueue (c2 :: rest) c wl =
        enqueue rest c (if c2 ≠ c ∧ c2 ∉ wl then wl ++ [c2] else wl) := by
      simp [enqueue]
    rw [hstep]
    by_cases hc : c2 ≠ c ∧ c2 ∉ wl
    · rw [if_pos hc]
      have := ih c (wl ++ [c2])
      simp at this
      simp
      omega
    · rw [if_neg hc]
      have := ih c wl
      simp
      omega

theorem constraintsOf_length_le (csp : CSP) (v : Nat) :
    (constraintsOf csp v).length ≤ csp.constraints.length := by
  calc (constraintsOf csp v).length
      ≤ (List.range csp.constraints.length).length := List.length_filter_le _ _
    _ = csp.constraints.length := List.length_range _

/-- The fuel passed to `valLoopF` never cuts the loop short: once
`curdom.length ≤ fuel + i`, adding fuel does not change the result (the
fuel-0 clause coincides with the exit condition `i ≥ curdom.length`). -/
theorem valLoopF_fuel_irrelevant (csp : CSP) (rv : Nat) (rl : Val) (c v : Nat) :
    ∀ (fuel i : Nat) (wl : List Nat) (s : St),
      (getVar s v).curdom.length ≤ fuel + i →
      valLoopF csp rv rl c v (fuel + 1) i wl s = valLoopF csp rv rl c v fuel i wl s := by
  intro fuel
  induction fuel with
  | zero =>
    intro i wl s had
    have : ¬ i < (getVar s v).curdom.length := by omega
    simp only [valLoopF, dif_neg this]
  | succ fuel ih =>
    intro i wl s had
    by_cases hlt : i < (getVar s v).curdom.length
    · have hmem : (getVar s v).curdom.get ⟨i, hlt⟩ ∈ (getVar s v).curdom :=
        List.get_mem _ _ hlt
      by_cases hsup :
          hasSupport s (csp.constraints.getD c default) v ((getVar s v).curdom.get ⟨i, hlt⟩)
      · simp only [valLoopF, dif_pos hlt, if_pos hsup]
        exact ih (i + 1) wl s (by omega)
      · have hlen : ((getVar s v).curdom.erase ((getVar s v).curdom.get ⟨i, hlt⟩)).length + 1
            = (getVar s v).curdom.length := by
          rw [List.length_erase_of_mem hmem]
          omega
        have hrange : v < s.vars.length := by
          refine getVar_in_range_of_curdom_ne s v (fun hnil => ?_)
          rw [hnil] at hlt
          simp at hlt
        have hcur : (getVar (pruneValue s v ((getVar s v).curdom.get ⟨i, hlt⟩) rv rl)
            v).curdom = (getVar s v).curdom.erase ((getVar s v).curdom.get ⟨i, hlt⟩) := by
          rw [getVar_pruneValue_self s v _ rv rl hrange]
        simp only [valLoopF, dif_pos hlt, if_neg hsup]
        split
        · rfl
        · exact ih (i + 1) _ _ (by rw [hcur]; omega)
    · simp only [valLoopF, dif_neg hlt]

theorem valLoopF_measure (csp : CSP) (rv : Nat) (rl : Val) (c v : Nat) :
    ∀ (fuel i : Nat) (wl : List Nat) (s : St) (wl' : List Nat) (s' : St),
      valLoopF csp rv rl c v fuel i wl s = .cont wl' s' →
      totalCurdom s' * (csp.constraints.length + 1) + wl'.length ≤
        totalCurdom s * (csp.constraints.length + 1) + wl.length := by
  intro fuel
  induction fuel with
  | zero =>
    intro i wl s wl' s' h
    simp only [valLoopF] at h
    cases h
    exact Nat.le_refl _
  | succ fuel ih =>
    intro i wl s wl' s' h
    by_cases hlt : i < (getVar s v).curdom.length
    · by_cases hsup :
          hasSupport s (csp.constraints.getD c default) v ((getVar s v).curdom.get ⟨i, hlt⟩)
      · simp only [valLoopF, dif_pos hlt, if_pos hsup] at h
        exact ih _ _ _ _ _ h
      · simp only [valLoopF, dif_pos hlt, if_neg hsup] at h
        split at h
        · cases h
        · have hmem : (getVar s v).curdom.get ⟨i, hlt⟩ ∈ (getVar s v).curdom :=
            List.get_mem _ _ hlt
          have ht := totalCurdom_pruneValue s v _ rv rl hmem
          have hm := ih _ _ _ _ _ h
          have he := enqueue_length (constraintsOf csp v) c wl
          have hc := constraintsOf_length_le csp v
          set K := csp.constraints.length
          set T := totalCurdom s
          set T' := totalCurdom (pruneValue s v ((getVar s v).curdom.get ⟨i, hlt⟩) rv rl)
          have hT : T' + 1 = T := ht
          calc totalCurdom s' * (K + 1) + wl'.length
              ≤ T' * (K + 1) + (enqueue (constraintsOf csp v) c wl).length := hm
            _ ≤ T' * (K + 1) + (wl.length + K) := by omega
            _ ≤ T * (K + 1) + wl.length := by
                have : T * (K + 1) = T' * (K + 1) + (K + 1) := by
                  rw [← hT]; ring
                omega
    · simp only [valLoopF, dif_neg hlt] at h
      cases h
      exact Nat.le_refl _

theorem varLoop_measure (csp : CSP) (rv : Nat) (rl : Val) (c : Nat) :
    ∀ (scope : List Nat) (wl : List Nat) (s : St) (wl' : List Nat) (s' : St),
      varLoop csp rv rl c scope wl s = .cont wl' s' →
      totalCurdom s' * (csp.constraints.length + 1) + wl'.length ≤
        totalCurdom s * (csp.constraints.length + 1) + wl.length := by
  intro scope
  induction scope with
  | nil =>
    intro wl s wl' s' h
    simp only [varLoop] at h
    cases h
    exact Nat.le_refl _
  | cons v vs ih =>
    intro wl s wl' s' h
    simp only [varLoop] at h
    cases hv : valLoopF csp rv rl c v ((getVar s v).curdom.length) 0 wl s with
    | dwo s1 => rw [hv] at h; cases h
    | cont wl1 s1 =>
      rw [hv] at h
      exact Nat.le_trans (ih _ _ _ _ h) (valLoopF_measure csp rv rl c v _ _ _ _ _ _ hv)

theorem gac_enforce_aux_total (csp : CSP) (rv : Nat) (rl : Val) :
    ∀ (fuel : Nat) (wl : List Nat) (s : St),
      totalCurdom s * (csp.constraints.length + 1) + wl.length < fuel →
      ∃ s', gac_enforce_aux csp rv rl fuel wl s = some (("OK"), s') ∨
            gac_enforce_aux csp rv rl fuel wl s = some (("DWO"), s') := by
  intro fuel
  induction fuel with
  | zero =>
    intro wl s h
    omega
  | succ fuel ih =>
    intro wl s h
    cases wl with
    | nil => exact ⟨s, Or.inl rfl⟩
    | cons c0 rest =>
      simp only [gac_enforce_aux]
      cases hv : varLoop csp rv rl ((c0 :: rest).getLastD 0)
          ((csp.constraints.getD ((c0 :: rest).getLastD 0) default).scope)
          ((c0 :: rest).dropLast) s with
      | dwo s1 => exact ⟨s1, Or.inr rfl⟩
      | cont wl2 s2 =>
        have hm := varLoop_measure csp rv rl _ _ _ _ _ _ hv
        have hdl : (c0 :: rest).dropLast.length = rest.length := by simp
        rw [hdl] at hm
        simp only [List.length_cons] at h
        exact ih wl2 s2 (by omega)

theorem insertDesc_length (key : Nat → Nat) (x : Nat) :
    ∀ l : List Nat, (insertDesc key x l).length = l.length + 1 := by
  intro l
  induction l with
  | nil => rfl
  | cons y ys ih =>
    by_cases h : key x ≥ key y
    · simp [insertDesc, h]
    · simp [insertDesc, h, ih]

theorem stableSortDesc_length (key : Nat → Nat) :
    ∀ l : List Nat, (stableSortDesc key l).length = l.length := by
  intro l
  induction l with
  | nil => rfl
  | cons x xs ih => simp [stableSortDesc, insertDesc_length, ih]

theorem completionsRev_length (vinfo : Nat → VarState) :
    ∀ (rv : List Nat) (asgn ext : List (Nat × Val)),
      ext ∈ completionsRev vinfo asgn rv → ext.length = asgn.length + rv.length := by
  intro rv
  induction rv with
  | nil =>
    intro asgn ext h
    simp only [completionsRev, List.mem_singleton] at h
    simp [h]
  | cons var rest ih =>
    intro asgn ext h
    simp only [completionsRev, List.mem_flatten] at h
    obtain ⟨l, hl, hml⟩ := h
    simp only [List.mem_map] at hl
    obtain ⟨val, _, rfl⟩ := hl
    have := ih _ _ hml
    simp at this ⊢
    omega

/-- The ROW constraint really is exact: whenever its `hasSupport` accepts,
some complete extension over the other cells of the line has EXACTLY the
target number of `'S'` cells (contrast `col_hasSupport_accepts_inexact_count`
for the column constraint). -/
theorem row_hasSupport_only_if_exact (s : St) (sc : List Nat) (target : Nat)
    (var : Nat) (val : Val) (hv : var ∈ sc)
    (h : hasSupport s (Cnstr.row sc target) var val = true) :
    ∃ ext ∈ completions (fun i => getVar s i) [(var, val)]
        (stableSortDesc (fun w => curDomainSize (getVar s w)) (sc.erase var)),
      (ext.filter (fun p => p.snd == ('S'))).length = target := by
  simp only [hasSupport, if_pos hv] at h
  obtain ⟨ext, hm, hf⟩ :=
    findvalsRev_sound (fun i => getVar s i) (check_rows sc.length target)
      (check_rows sc.length target)
      (stableSortDesc (fun w => curDomainSize (getVar s w)) (sc.erase var)).reverse
      [(var, val)] h
  refine ⟨ext, hm, ?_⟩
  have hlen : ext.length = sc.length := by
    have h1 := completionsRev_length (fun i => getVar s i) _ _ _ hm
    have h2 : (sc.erase var).length + 1 = sc.length := by
      rw [List.length_erase_of_mem hv]
      have : sc.length ≠ 0 := by
        intro hz
        rw [List.length_eq_zero] at hz
        rw [hz] at hv
        exact absurd hv (List.not_mem_nil var)
      omega
    simp only [List.length_reverse, stableSortDesc_length, List.length_singleton] at h1
    omega
  rw [check_rows, hlen] at hf
  simp only [Nat.lt_irrefl, if_false] at hf
  exact of_decide_eq_true hf

theorem curdom_size_updateVar (s : St) (v w : Nat) (f : VarState → VarState)
    (hf : ∀ vs, (f vs).curdom_size = vs.curdom_size) :
    (getVar (updateVar s v f) w).curdom_size = (getVar s w).curdom_size := by
  by_cases h : w = v
  · subst h
    by_cases hr : w < s.vars.length
    · rw [getVar_updateVar_self s w f hr]
      exact hf _
    · rw [updateVar_out s w f (by omega)]
  · rw [getVar_updateVar_ne s v w f h]

/-- The `curdom_size` counter is written only at construction: none of the
mutating operations — pruning, restoring, (un)assignment, domain reset —
ever changes it, which is why the wipeout test in `gac_enforce` and the
comparison in `select_unassigned_variable` read the ORIGINAL domain size. -/
theorem curdom_size_never_updated :
    (∀ (s : St) (v w : Nat) (xv : Val) (rv : Nat) (rl : Val),
      (getVar (pruneValue s v xv rv rl) w).curdom_size = (getVar s w).curdom_size) ∧
    (∀ (s : St) (v w : Nat) (xv : Val),
      (getVar (restoreVal s v xv) w).curdom_size = (getVar s w).curdom_size) ∧
    (∀ (s : St) (v w : Nat) (ov : Option Val),
      (getVar (setValue s v ov) w).curdom_size = (getVar s w).curdom_size) ∧
    (∀ (s : St) (v w : Nat),
      (getVar (restoreCurDomain s v) w).curdom_size = (getVar s w).curdom_size) ∧
    (∀ (s : St) (v w : Nat),
      (getVar (reset s v) w).curdom_size = (getVar s w).curdom_size) := by
  have hset : ∀ (s : St) (v w : Nat) (ov : Option Val),
      (getVar (setValue s v ov) w).curdom_size = (getVar s w).curdom_size := by
    intro s v w ov
    cases ov with
    | none => exact curdom_size_updateVar s v w _ (fun vs => rfl)
    | some xv =>
      simp only [setValue]
      split
      · exact curdom_size_updateVar s v w _ (fun vs => rfl)
      · rfl
  have hrcd : ∀ (s : St) (v w : Nat),
      (getVar (restoreCurDomain s v) w).curdom_size = (getVar s w).curdom_size :=
    fun s v w => curdom_size_updateVar s v w _ (fun vs => rfl)
  refine ⟨?_, ?_, hset, hrcd, ?_⟩
  · intro s v w xv rv rl
    rw [getVar_pruneValue]
    exact curdom_size_updateVar s v w _ (fun vs => rfl)
  · intro s v w xv
    exact curdom_size_updateVar s v w _ (fun vs => rfl)
  · intro s v w
    rw [reset, unAssign, hset, hrcd]

theorem gacVals_sound (csp : CSP) (ps : PState) (v : Nat)
    (tryRec : St → List Char → Bool × St × List Char)
    (H : ∀ s2 sol2, (tryRec s2 sol2).fst = true →
      (check_ship_constraints (assignedOf (tryRec s2 sol2).snd.fst) ps).fst = true) :
    ∀ (vals : List Val) (s : St) (sol : List Char),
      (gacVals csp v tryRec vals s sol).fst = true →
      (check_ship_constraints
        (assignedOf (gacVals csp v tryRec vals s sol).snd.fst) ps).fst = true := by
  intro vals
  induction vals with
  | nil =>
    intro s sol h
    simp [gacVals] at h
  | cons val more ih =>
    intro s sol h
    simp only [gacVals] at h ⊢
    by_cases hd : (gac_enforce csp v val (constraintsOf csp v)
        (setValue s v (some val))).fst = ("DWO")
    · rw [if_pos hd] at h ⊢
      exact ih _ _ h
    · rw [if_neg hd] at h ⊢
      by_cases hs : (tryRec (gac_enforce csp v val (constraintsOf csp v)
          (setValue s v (some val))).snd sol).fst = true
      · rw [if_pos hs] at h ⊢
        exact H _ _ hs
      · rw [if_neg hs] at h ⊢
        exact ih _ _ h

theorem gacRev_sound (csp : CSP) (ps : PState) :
    ∀ (uvars : List Nat) (s : St) (sol : List Char),
      (gacRev csp ps uvars s sol).fst = true →
      (check_ship_constraints
        (assignedOf (gacRev csp ps uvars s sol).snd.fst) ps).fst = true := by
  intro uvars
  induction uvars with
  | nil =>
    intro s sol h
    simp only [gacRev] at h ⊢
    by_cases hc : (check_ship_constraints (assignedOf s) ps).fst = true
    · rw [if_pos hc] at h ⊢
      exact hc
    · rw [if_neg hc] at h
      simp at h
  | cons v rest ih =>
    intro s sol h
    simp only [gacRev] at h ⊢
    exact gacVals_sound csp ps v _ (fun s2 sol2 h2 => ih s2 sol2 h2) _ s sol h

theorem find?_range'_first :
    ∀ (n start : Nat) (p : Nat → Bool) (b : Nat),
      (List.range' start n).find? p = some b →
      p b = true ∧ start ≤ b ∧ b < start + n ∧
        ∀ j, start ≤ j → j < b → p j = false := by
  intro n
  induction n with
  | zero =>
    intro start p b h
    simp at h
  | succ n ih =>
    intro start p b h
    rw [List.range'_succ] at h
    by_cases hp : p start = true
    · rw [List.find?_cons_of_pos _ hp] at h
      cases h
      exact ⟨hp, Nat.le_refl _, by omega, fun j h1 h2 => by omega⟩
    · rw [List.find?_cons_of_neg _ (by simpa using hp)] at h
      obtain ⟨h1, h2, h3, h4⟩ := ih (start + 1) p b h
      refine ⟨h1, by omega, by omega, fun j hj1 hj2 => ?_⟩
      by_cases hj : j = start
      · subst hj
        simpa using hp
      · exact h4 j (by omega) hj2

/-- Invariant of `select_unassigned_variable`'s scan: after folding over the
first `n` indices starting from the first unassigned variable `b0`, the
candidate is the earliest unassigned index among those scanned (and `b0`)
whose stored `curdom_size` is minimal. -/
theorem select_fold_invariant (s : St) (b0 : Nat)
    (hb0un : isAssigned (getVar s b0) = false)
    (hb0first : ∀ j < b0, isAssigned (getVar s j) = true) :
    ∀ n,
      isAssigned (getVar s ((List.range n).foldl (fun best i =>
          if (getVar s i).curdom_size < (getVar s best).curdom_size ∧
              isAssigned (getVar s i) = false then i else best) b0)) = false ∧
      (((List.range n).foldl (fun best i =>
          if (getVar s i).curdom_size < (getVar s best).curdom_size ∧
              isAssigned (getVar s i) = false then i else best) b0) = b0 ∨
        ((List.range n).foldl (fun best i =>
          if (getVar s i).curdom_size < (getVar s best).curdom_size ∧
              isAssigned (getVar s i) = false then i else best) b0) < n) ∧
      (∀ j < n, isAssigned (getVar s j) = false →
        (getVar s ((List.range n).foldl (fun best i =>
          if (getVar s i).curdom_size < (getVar s best).curdom_size ∧
              isAssigned (getVar s i) = false then i else best) b0)).curdom_size ≤
          (getVar s j).curdom_size) ∧
      (∀ j < n, j < ((List.range n).foldl (fun best i =>
          if (getVar s i).curdom_size < (getVar s best).curdom_size ∧
              isAssigned (getVar s i) = false then i else best) b0) →
        isAssigned (getVar s j) = false →
        (getVar s ((List.range n).foldl (fun best i =>
          if (getVar s i).curdom_size < (getVar s best).curdom_size ∧
              isAssigned (getVar s i) = false then i else best) b0)).curdom_size <
          (getVar s j).curdom_size) := by
  intro n
  induction n with
  | zero =>
    refine ⟨hb0un, Or.inl rfl, ?_, ?_⟩ <;> intro j hj <;> omega
  | succ n ih =>
    obtain ⟨ih1, ih2, ih3, ih4⟩ := ih
    rw [List.range_succ, List.foldl_append, List.foldl_cons, List.foldl_nil]
    set rn := (List.range n).foldl (fun best i =>
      if (getVar s i).curdom_size < (getVar s best).curdom_size ∧
          isAssigned (getVar s i) = false then i else best) b0 with hrn
    by_cases hcond : (getVar s n).curdom_size < (getVar s rn).curdom_size ∧
        isAssigned (getVar s n) = false
    · rw [if_pos hcond]
      refine ⟨hcond.2, Or.inr (by omega), ?_, ?_⟩
      · intro j hj hun
        rcases Nat.lt_succ_iff_lt_or_eq.mp hj with hj' | rfl
        · exact Nat.le_trans (Nat.le_of_lt hcond.1) (ih3 j hj' hun)
        · exact Nat.le_refl _
      · intro j hj hjr hun
        have hj' : j < n := by omega
        exact Nat.lt_of_lt_of_le hcond.1 (ih3 j hj' hun)
    · rw [if_neg hcond]
      refine ⟨ih1, ?_, ?_, ?_⟩
      · rcases ih2 with h | h
        · exact Or.inl h
        · exact Or.inr (by omega)
      · intro j hj hun
        rcases Nat.lt_succ_iff_lt_or_eq.mp hj with hj' | rfl
        · exact ih3 j hj' hun
        · have : ¬ (getVar s j).curdom_size < (getVar s rn).curdom_size := by
            intro hlt
            exact hcond ⟨hlt, hun⟩
          omega
      · intro j hj hjr hun
        rcases Nat.lt_succ_iff_lt_or_eq.mp hj with hj' | rfl
        · exact ih4 j hj' hjr hun
        · rcases ih2 with hb | hlt
          · rw [hb] at hjr
            rw [hb0first j hjr] at hun
            cases hun
          · omega

/-!
### Claim theorems
-/

/-- C10: `Variable.clearUndoDict` rebinds only a local name, so it leaves
the shared ledger (indeed the whole state) unchanged; among the
state-mutating operations, `pruneValue` only appends to the ledger entry of
its reason key (never removing a key), and `restoreVal`, `setValue`,
`restoreCurDomain` and `reset` do not touch the ledger at all, so ledger
entries are removed only by `restoreValues`. -/
theorem clearUndoDict_leaves_ledger_unchanged :
    (∀ s : St, clearUndoDict s = s) ∧
    (∀ (s : St) (v : Nat) (xv : Val) (rv : Nat) (rl : Val) (k : Nat × Val),
      ledgerGet (pruneValue s v xv rv rl).undoDict k =
        if k = (rv, rl) then some ((ledgerGet s.undoDict (rv, rl)).getD [] ++ [(v, xv)])
        else ledgerGet s.undoDict k) ∧
    (∀ (s : St) (v : Nat) (xv : Val), (restoreVal s v xv).undoDict = s.undoDict) ∧
    (∀ (s : St) (v : Nat) (ov : Option Val), (setValue s v ov).undoDict = s.undoDict) ∧
    (∀ (s : St) (v : Nat), (restoreCurDomain s v).undoDict = s.undoDict) ∧
    (∀ (s : St) (v : Nat), (reset s v).undoDict = s.undoDict) := by
  refine ⟨fun s => rfl, ?_, fun s v xv => rfl, ?_, fun s v => rfl, ?_⟩
  · intro s v xv rv rl k
    rw [pruneValue_undoDict]
    exact ledgerGet_ledgerAdd s.undoDict (rv, rl) (v, xv) k
  · intro s v ov
    cases ov with
    | none => rfl
    | some xv =>
      simp only [setValue]
      split <;> rfl
  · intro s v
    simp only [reset, unAssign, setValue, restoreCurDomain]
    rfl

/-- C8 (amended): `pruneValue` on a value absent from the working set does
not fail/abort — the exception is caught after an error message — so the
working set is left unchanged while the (variable, value) pair is still
appended to the ledger entry of the reason key. -/
theorem pruneValue_absent_amended (s : St) (v : Nat) (xv : Val) (rv : Nat) (rl : Val)
    (h : xv ∉ (getVar s v).curdom) :
    (getVar (pruneValue s v xv rv rl) v).curdom = (getVar s v).curdom ∧
    ledgerGet (pruneValue s v xv rv rl).undoDict (rv, rl) =
      some ((ledgerGet s.undoDict (rv, rl)).getD [] ++ [(v, xv)]) := by
  constructor
  · by_cases hr : v < s.vars.length
    · rw [getVar_pruneValue_self s v xv rv rl hr]
      simp [List.erase_of_not_mem h]
    · rw [getVar_pruneValue, updateVar_out s v _ (by omega)]
  · rw [pruneValue_undoDict, ledgerGet_ledgerAdd]
    simp

theorem pruneValue_absent_amended_witness :
    (getVar (pruneValue sC8 0 ('S') 5 ('S')) 0).curdom = (getVar sC8 0).curdom ∧
    ledgerGet (pruneValue sC8 0 ('S') 5 ('S')).undoDict (5, ('S')) =
      some ((ledgerGet sC8.undoDict (5, ('S'))).getD [] ++ [(0, ('S'))]) :=
  pruneValue_absent_amended sC8 0 ('S') 5 ('S') (by decide)

/-- C8 counterexample: pruning `'S'` from the working set `['.']`, which does
not contain it, does not fail with an error: execution continues, the working
set is unchanged, the bogus pair is recorded in the ledger, and a later
restore under the same reason grows the domain beyond its original contents
(the corrupted state the claim says cannot arise). -/
theorem pruneValue_absent_continues_cex :
    (getVar (pruneValue sC8 0 ('S') 5 ('S')) 0).curdom = [('.')] ∧
    ledgerGet (pruneValue sC8 0 ('S') 5 ('S')).undoDict (5, ('S')) =
      some [(0, ('S'))] ∧
    (getVar (restoreValues (pruneValue sC8 0 ('S') 5 ('S')) 5 ('S')) 0).curdom =
      [('.'), ('S')] := by decide

/-- C5: for the adjacency ("water") constraint over two cells as the program
constructs it (`required = ['.']`, bounds `[1, 2]`), once both cells are
assigned values from `{'S', '.'}`, `check` accepts exactly when the cells are
not both ship fragments: both water and exactly one ship pass, both ship
fails. -/
theorem water_check_pairwise (s : St) (a b : Nat) (va vb : Val)
    (ha : (getVar s a).value = some va) (hb : (getVar s b).value = some vb)
    (hva : va = ('S') ∨ va = ('.')) (hvb : vb = ('S') ∨ vb = ('.')) :
    (water_check s [a, b] [('.')] 1 2 = true ↔ ¬(va = ('S') ∧ vb = ('S'))) := by
  have hvals : allAssignedVals s [a, b] = some [va, vb] := by
    simp [allAssignedVals, ha, hb]
  rcases hva with hva | hva <;> rcases hvb with hvb | hvb <;>
    subst hva <;> subst hvb <;> simp [water_check, hvals]

theorem water_check_pairwise_witness :
    (water_check sC5 [0, 1] [('.')] 1 2 = true ↔ ¬(('S') = ('S') ∧ ('.') = ('S'))) :=
  water_check_pairwise sC5 0 1 ('S') ('.') rfl rfl (Or.inl rfl) (Or.inr rfl)

/-- C1: evaluated at `sC1` (one cell, domain `['S', '.']`, two contradictory
row constraints), `gac_enforce` prunes the cell's current domain to empty and
still returns `"OK"` after processing further constraints: its wipeout test
reads the `curdom_size` counter, which no code ever updates after
construction, so the `"DWO"` signal is not raised when the domain empties. -/
theorem gac_enforce_wipeout_returns_OK :
    (getVar sC1 0).curdom = [('S'), ('.')] ∧
    (gac_enforce cspC1 0 ('S') [0, 1] sC1).fst = ("OK") ∧
    (getVar (gac_enforce cspC1 0 ('S') [0, 1] sC1).snd 0).curdom = [] := by decide

/-- C3: the column constraint's `hasSupport` accepts values whose line cannot
reach the target exactly: at `sC3` (column target 2, cell 1 restricted to
water) it accepts `(cell 0, '.')` although every complete extension has
strictly fewer than 2 ship cells, because `check_cols` tests `≤ target` in
its fully-assigned branch as well; the row constraint with the same scope and
target, whose final test is exact equality, rejects the same value. -/
theorem col_hasSupport_accepts_inexact_count :
    hasSupport sC3 (Cnstr.col [0, 1] 2) 0 ('.') = true ∧
    (completions (fun i => getVar sC3 i) [((0 : Nat), ('.'))] [1]).all
      (fun ext => decide ((ext.filter (fun p => p.snd == ('S'))).length ≠ 2)) = true ∧
    hasSupport sC3 (Cnstr.row [0, 1] 2) 0 ('.') = false := by decide

/-- C4 (amended): `findvals_` is sound for arbitrary predicate pairs — it
returns `true` only if some complete extension of the seed assignment, one
value per remaining variable from its current domain, satisfies the final
predicate — and the claimed "if and only if" holds whenever the partial
predicate never rejects (as with `findvals`'s default always-true partial
test); a rejecting partial predicate may prune the branch containing the only
satisfying extension, so the iff fails for arbitrary pairs. -/
theorem findvals_exists_extension (vinfo : Nat → VarState)
    (finalTestfn ptestfn : List (Nat × Val) → Bool) :
    (∀ (rv : List Nat) (asgn : List (Nat × Val)),
       findvals_ vinfo rv asgn finalTestfn ptestfn = true →
       ∃ ext ∈ completions vinfo asgn rv, finalTestfn ext = true) ∧
    ((∀ l, ptestfn l = true) →
      ∀ (rv : List Nat) (asgn : List (Nat × Val)),
        (findvals_ vinfo rv asgn finalTestfn ptestfn = true ↔
          ∃ ext ∈ completions vinfo asgn rv, finalTestfn ext = true)) := by
  constructor
  · intro rv asgn h
    exact findvalsRev_sound vinfo finalTestfn ptestfn rv.reverse asgn h
  · intro hp rv asgn
    constructor
    · exact findvalsRev_sound vinfo finalTestfn ptestfn rv.reverse asgn
    · exact findvalsRev_complete vinfo finalTestfn ptestfn hp rv.reverse asgn

theorem findvals_exists_extension_witness :
    (findvals_ vinfoW [0] [] (fun _ => true) (fun _ => true) = true ↔
      ∃ ext ∈ completions vinfoW [] [0],
        (fun _ : List (Nat × Val) => true) ext = true) :=
  (findvals_exists_extension vinfoW (fun _ => true) (fun _ => true)).2
    (fun _ => rfl) [0] []

/-- C9 (amended): `select_unassigned_variable` returns the first unassigned
variable whose STORED `curdom_size` counter — which still holds the original
domain size, since pruning never updates it — is minimal among unassigned
variables (earlier unassigned variables have strictly larger counters, i.e.
first-found wins ties); the `gac` search itself does not call this helper: it
assigns the variable popped from the END of its unassigned-variable stack. -/
theorem select_variable_amended :
    (∀ (s : St) (i : Nat), select_unassigned_variable s = some i →
      i < s.vars.length ∧ isAssigned (getVar s i) = false ∧
      (∀ j < s.vars.length, isAssigned (getVar s j) = false →
        (getVar s i).curdom_size ≤ (getVar s j).curdom_size) ∧
      (∀ j < i, isAssigned (getVar s j) = false →
        (getVar s i).curdom_size < (getVar s j).curdom_size)) ∧
    (∀ (csp : CSP) (ps : PState) (uvars : List Nat) (v : Nat) (s : St)
        (sol : List Char),
      gac csp ps (uvars ++ [v]) s sol =
        gacVals csp v (fun s2 sol2 => gacRev csp ps uvars.reverse s2 sol2)
          (curDomain (getVar s v)) s sol) := by
  constructor
  · intro s i h
    cases hf : (List.range s.vars.length).find? (fun i => ! isAssigned (getVar s i)) with
    | none =>
      rw [select_unassigned_variable, hf] at h
      cases h
    | some b0 =>
      rw [select_unassigned_variable, hf] at h
      injection h with h
      subst h
      rw [List.range_eq_range'] at hf
      obtain ⟨hpb0, _, hb0lt, hfirst⟩ :=
        find?_range'_first s.vars.length 0 _ b0 hf
      have hb0un : isAssigned (getVar s b0) = false := by
        simpa using hpb0
      have hb0first : ∀ j < b0, isAssigned (getVar s j) = true := by
        intro j hj
        have := hfirst j (Nat.zero_le j) hj
        simpa using this
      obtain ⟨inv1, inv2, inv3, inv4⟩ :=
        select_fold_invariant s b0 hb0un hb0first s.vars.length
      refine ⟨?_, inv1, inv3, ?_⟩
      · rcases inv2 with hh | hh
        · rw [hh]
          omega
        · exact hh
      · intro j hj hun
        have hjlen : j < s.vars.length := by
          rcases inv2 with hh | hh

          · rw [hh] at hj
            omega
          · omega
        exact inv4 j hjlen hj hun
  · intro csp ps uvars v s sol
    simp only [gac, List.reverse_append, List.reverse_cons, List.reverse_nil,
      List.nil_append, List.singleton_append, gacRev]

theorem select_variable_amended_witness :
    0 < sC9.vars.length ∧ isAssigned (getVar sC9 0) = false ∧
    (∀ j < sC9.vars.length, isAssigned (getVar sC9 j) = false →
      (getVar sC9 0).curdom_size ≤ (getVar sC9 j).curdom_size) ∧
    (∀ j < 0, isAssigned (getVar sC9 j) = false →
      (getVar sC9 0).curdom_size < (getVar sC9 j).curdom_size) :=
  select_variable_amended.1 sC9 0 (by decide)

/-- C9 counterexample: on `sC9` the selection helper returns cell 0 — the
stored `curdom_size` counters tie at 2 because pruning never updates them —
although unassigned cell 1's actual current-domain size is 1 < 2, so the
chosen variable does not have the smallest current-domain size among
unassigned variables. -/
theorem select_variable_stale_size_cex :
    select_unassigned_variable sC9 = some 0 ∧
    isAssigned (getVar sC9 1) = false ∧
    curDomainSize (getVar sC9 1) < curDomainSize (getVar sC9 0) := by decide

/-- C2: at a full assignment (empty unassigned stack) the search declares
success exactly when `check_ship_constraints` — the global fleet-composition
check — passes on the collected assignment; when it fails, `gac` returns
failure for that branch (and its caller then restores the prunings and tries
the next value, i.e. continues backtracking). Moreover every successful
search outcome carries a final state whose full assignment passes the
check. -/
theorem gac_declares_success_iff_fleet_check (csp : CSP) (ps : PState) :
    (∀ (s : St) (sol : List Char),
      ((gac csp ps [] s sol).fst = true ↔
        (check_ship_constraints (assignedOf s) ps).fst = true)) ∧
    (∀ (uvars : List Nat) (s : St) (sol : List Char),
      (gac csp ps uvars s sol).fst = true →
      (check_ship_constraints
        (assignedOf (gac csp ps uvars s sol).snd.fst) ps).fst = true) := by
  constructor
  · intro s sol
    simp only [gac, List.reverse_nil, gacRev]
    by_cases hc : (check_ship_constraints (assignedOf s) ps).fst = true
    · rw [if_pos hc]
      simp [hc]
    · rw [if_neg hc]
      simp [hc]
  · intro uvars s sol h
    exact gacRev_sound csp ps uvars.reverse s sol h

theorem gac_declares_success_iff_fleet_check_witness :
    (check_ship_constraints
      (assignedOf (gac cspW2 psW2 [0] sW2 []).snd.fst) psW2).fst = true :=
  (gac_declares_success_iff_fleet_check cspW2 psW2).2 [0] sW2 [] (by decide)

/-- C7: for every CSP, initial worklist and state, `gac_enforce` terminates
with `"OK"` or `"DWO"`: every prune strictly shrinks some current domain and
a constraint is re-enqueued only after a prune, so the computed fuel
`totalCurdom * (|constraints| + 1) + |worklist| + 1` — which the measure
lemmas show strictly decreases across while-iterations — is sufficient for
`gac_enforce_aux` to deliver a result. -/
theorem gac_enforce_terminates (csp : CSP) (reasonVar : Nat) (reasonVal : Val)
    (wl : List Nat) (s : St) :
    ∃ s', gac_enforce_aux csp reasonVar reasonVal (gacEnforceBound csp wl s) wl s =
            some (("OK"), s') ∨
          gac_enforce_aux csp reasonVar reasonVal (gacEnforceBound csp wl s) wl s =
            some (("DWO"), s') :=
  gac_enforce_aux_total csp reasonVar reasonVal (gacEnforceBound csp wl s) wl s
    (by simp [gacEnforceBound])

/-- C6: for a reason key with no prior ledger entry, if every prune recorded
under that key removed a value present in its variable's current domain at
prune time, then `restoreValues` afterwards returns every variable's current
domain to exactly its pre-prune contents (even as a multiset, hence as a
set), and removes the key from the ledger entirely. -/
theorem restoreValues_restores_exactly (s : St) (rv : Nat) (rl : Val)
    (prunes : List (Nat × Val))
    (h0 : ledgerGet s.undoDict (rv, rl) = none)
    (hv : prunesValid rv rl s prunes = true) :
    (∀ (v : Nat) (xv : Val),
       xv ∈ (getVar (restoreValues (applyPrunes rv rl prunes s) rv rl) v).curdom ↔
       xv ∈ (getVar s v).curdom) ∧
    ledgerGet (restoreValues (applyPrunes rv rl prunes s) rv rl).undoDict (rv, rl) =
      none := by
  cases prunes with
  | nil =>
    have h1 : applyPrunes rv rl [] s = s := by simp [applyPrunes]
    rw [h1]
    have h2 : restoreValues s rv rl = s := by
      simp [restoreValues, h0]
    rw [h2]
    exact ⟨fun v xv => Iff.rfl, h0⟩
  | cons p rest =>
    have hget : ledgerGet (applyPrunes rv rl (p :: rest) s).undoDict (rv, rl) =
        some (p :: rest) :=
      applyPrunes_ledger_none rv rl (p :: rest) s h0 (by simp)
    have hrv : restoreValues (applyPrunes rv rl (p :: rest) s) rv rl =
        { (p :: rest).foldl (fun st q => restoreVal st q.1 q.2)
            (applyPrunes rv rl (p :: rest) s) with
          undoDict := ledgerDel ((p :: rest).foldl (fun st q => restoreVal st q.1 q.2)
            (applyPrunes rv rl (p :: rest) s)).undoDict (rv, rl) } := by
      simp only [restoreValues, hget]
    constructor
    · intro v xv
      have hin : ∀ q ∈ (p :: rest),
          q.1 < (applyPrunes rv rl (p :: rest) s).vars.length := by
        intro q hq
        rw [applyPrunes_vars_length]
        exact prunesValid_in_range rv rl (p :: rest) s hv q hq
      have hcur : (getVar (restoreValues (applyPrunes rv rl (p :: rest) s) rv rl) v).curdom
          = (getVar (applyPrunes rv rl (p :: rest) s) v).curdom ++ valsFor v (p :: rest) := by
        rw [hrv]
        have : getVar { (p :: rest).foldl (fun st q => restoreVal st q.1 q.2)
            (applyPrunes rv rl (p :: rest) s) with
            undoDict := ledgerDel ((p :: rest).foldl (fun st q => restoreVal st q.1 q.2)
              (applyPrunes rv rl (p :: rest) s)).undoDict (rv, rl) } v
            = getVar ((p :: rest).foldl (fun st q => restoreVal st q.1 q.2)
              (applyPrunes rv rl (p :: rest) s)) v := rfl
        rw [this, restoreFold_curdom (p :: rest) _ hin v]
      have hms : ((getVar (restoreValues (applyPrunes rv rl (p :: rest) s) rv rl) v).curdom
          : Multiset Val) = ((getVar s v).curdom : Multiset Val) := by
        rw [hcur]
        have := applyPrunes_curdom_multiset rv rl (p :: rest) s hv v
        simpa using this
      constructor
      · intro hx
        have : xv ∈ ((getVar s v).curdom : Multiset Val) := by
          rw [← hms]
          exact Multiset.mem_coe.mpr hx
        exact Multiset.mem_coe.mp this
      · intro hx
        have : xv ∈ ((getVar (restoreValues (applyPrunes rv rl (p :: rest) s) rv rl)
            v).curdom : Multiset Val) := by
          rw [hms]
          exact Multiset.mem_coe.mpr hx
        exact Multiset.mem_coe.mp this
    · rw [hrv]
      have hdel0 : ledgerGet (ledgerDel s.undoDict (rv, rl)) (rv, rl) = none := by
        rw [ledgerGet_none_del s.undoDict (rv, rl) h0]
        exact h0
      have := applyPrunes_delGetNone rv rl (p :: rest) s hdel0
      simpa [restoreFold_undoDict] using this

theorem restoreValues_restores_exactly_witness :
    (∀ (v : Nat) (xv : Val),
       xv ∈ (getVar (restoreValues
         (applyPrunes 9 ('S') [(0, ('S')), (1, ('.'))] sC6) 9 ('S')) v).curdom ↔
       xv ∈ (getVar sC6 v).curdom) ∧
    ledgerGet (restoreValues
      (applyPrunes 9 ('S') [(0, ('S')), (1, ('.'))] sC6) 9 ('S')).undoDict
      (9, ('S')) = none :=
  restoreValues_restores_exactly sC6 9 ('S') [(0, ('S')), (1, ('.'))]
    (by decide) (by decide)

/-- C4 counterexample: with an always-true final predicate and an
always-false partial predicate, `findvals_` returns `false` although a
complete extension satisfying the final predicate exists, so the claimed
"returns true iff an extension satisfying the final predicate exists, for
arbitrary predicate pairs" is false. -/
theorem findvals_complete_extension_cex :
    findvals_ vinfoW [0] [] (fun _ => true) (fun _ => false) = false ∧
    ∃ ext ∈ completions vinfoW [] [0],
      (fun _ : List (Nat × Val) => true) ext = true :=
  ⟨rfl, ⟨[(0, ('S'))], by decide, rfl⟩⟩
